import Mathlib

/-!
Verification of the local-entry model of `spotify-player`
(`src/spotify_player/src/local/mod.rs` and `src/spotify_player/src/local/utils.rs`).

Strings are modelled as lists of characters (`Str`); on Unix the Rust code
compares `OsStr` values byte-wise over UTF-8, which coincides with
lexicographic comparison of the code points.  `std::time::Duration` is
modelled as a number of nanoseconds (`Nat`).
-/

/-- A string, modelled as its list of characters. -/
abbrev Str := List Char

/-- Split a string at every occurrence of the path separator character.
Mirrors how `std::path::Path` decomposes a Unix path into components. -/
def splitSlash : Str → List Str
  | [] => [[]]
  | c :: cs =>
    if c = '/' then [] :: splitSlash cs
    else
      match splitSlash cs with
      | [] => [[c]]
      | s :: ss => (c :: s) :: ss

/-- `std::path::Path::file_name`: the final normal component of the path.
Empty components (repeated or trailing separators) and `.` components are
normalised away; the result is `none` when the path has no components left
or terminates in `..`. -/
def rustFileName (p : Str) : Option Str :=
  let segs := (splitSlash p).filter (fun s => decide (s ≠ [] ∧ s ≠ ['.']))
  match segs.getLast? with
  | none => none
  | some s => if s = ['.', '.'] then none else some s

/-- The segment of the file name after its last `.`, if any
(helper for `rustExtension`). -/
def afterLastDot : Str → Option Str
  | [] => none
  | c :: cs =>
    match afterLastDot cs with
    | some r => some r
    | none => if c = '.' then some cs else none

/-- `std::path::Path::extension`: the portion of the file name after its last
`.`, unless there is no file name, no `.`, or the only `.` is the leading
character (dot-files have no extension). -/
def rustExtension (p : Str) : Option Str :=
  match rustFileName p with
  | none => none
  | some [] => none
  | some (_ :: rest) => afterLastDot rest

/-- ASCII lower-casing of one character (`u8::to_ascii_lowercase`). -/
def asciiLower (c : Char) : Char :=
  if 65 ≤ c.toNat ∧ c.toNat ≤ 90 then Char.ofNat (c.toNat + 32) else c

/-- `str::eq_ignore_ascii_case`. -/
def eqIgnoreAsciiCase (a b : Str) : Bool :=
  a.map asciiLower == b.map asciiLower

/-- `std::path::Path::join` for a child name produced by `read_dir`
(such names are plain, non-absolute file names). -/
def pathJoin (base name : Str) : Str :=
  if base = [] then name
  else if base.getLast? = some '/' then base ++ name
  else base ++ '/' :: name

/-- `LocalEntry` from `local/mod.rs`: either a directory or a playable audio
file with optional tag metadata.  `duration` is in nanoseconds. -/
inductive LocalEntry where
  | Directory (full_path : Str)
  | Playable (full_path : Str) (selected : Bool) (title : Option Str)
      (artists : Option (List Str)) (duration : Option Nat)
      (album : Option Str) (genre : Option Str)
deriving DecidableEq

namespace LocalEntry

/-- `LocalEntry::name`. -/
def name : LocalEntry → Str
  | Directory full_path =>
    match rustFileName full_path with
    | some n => n
    | none => full_path
  | Playable full_path _ title _ _ _ _ =>
    match title with
    | some t => t
    | none =>
      match rustFileName full_path with
      | some n => n
      | none => full_path

/-- `LocalEntry::file_name` (private in the source): the file-name component
of `full_path`, falling back to the displayed path itself. -/
def file_name : LocalEntry → Str
  | Directory full_path | Playable full_path _ _ _ _ _ _ =>
    match rustFileName full_path with
    | some n => n
    | none => full_path

/-- `LocalEntry::full_path`. -/
def full_path : LocalEntry → Str
  | Directory fp | Playable fp _ _ _ _ _ _ => fp

/-- The literal string `unknown`. -/
def unknownStr : Str := ['u', 'n', 'k', 'n', 'o', 'w', 'n']

/-- `LocalEntry::album`. -/
def album : LocalEntry → Str
  | Directory _ => unknownStr
  | Playable _ _ _ _ _ alb _ => alb.getD unknownStr

/-- `LocalEntry::artists`. -/
def artists : LocalEntry → List Str
  | Directory _ => []
  | Playable _ _ _ arts _ _ _ =>
    match arts with
    | some a => a
    | none => []

/-- `LocalEntry::duration` (`Duration::ZERO` default), in nanoseconds. -/
def duration : LocalEntry → Nat
  | Directory _ => 0
  | Playable _ _ _ _ dur _ _ => dur.getD 0

/-- `LocalEntry::set_duration`: overwrite the stored duration on a
`Playable`; no-op on a `Directory`. -/
def set_duration : LocalEntry → Option Nat → LocalEntry
  | Playable fp sel title arts _ alb gen, new_duration =>
    Playable fp sel title arts new_duration alb gen
  | e, _ => e

/-- `LocalEntry::selected`. -/
def selected : LocalEntry → Bool
  | Directory _ => false
  | Playable _ sel _ _ _ _ _ => sel

/-- `LocalEntry::set_selected`: no-op on a `Directory`. -/
def set_selected : LocalEntry → Bool → LocalEntry
  | Directory fp, _ => Directory fp
  | Playable fp _ title arts dur alb gen, value =>
    Playable fp value title arts dur alb gen

/-- The stored optional album field of a `Playable` (none for a directory);
projection used to state claims about the defaulted accessors. -/
def albumOpt : LocalEntry → Option Str
  | Directory _ => none
  | Playable _ _ _ _ _ alb _ => alb

/-- The stored optional artists field. -/
def artistsOpt : LocalEntry → Option (List Str)
  | Directory _ => none
  | Playable _ _ _ arts _ _ _ => arts

/-- The stored optional duration field. -/
def durationOpt : LocalEntry → Option Nat
  | Directory _ => none
  | Playable _ _ _ _ dur _ _ => dur

/-- Whether the entry is the `Playable` variant. -/
def isPlayable : LocalEntry → Bool
  | Directory _ => false
  | Playable _ _ _ _ _ _ _ => true

end LocalEntry

/-- Three-way comparison of characters by code point (byte order of their
UTF-8 encodings agrees with this). -/
def charCmp (a b : Char) : Ordering :=
  if a.toNat < b.toNat then .lt
  else if a.toNat = b.toNat then .eq
  else .gt

/-- Lexicographic three-way comparison of strings, as `Ord for str`
behaves on the byte level. -/
def strCmp : Str → Str → Ordering
  | [], [] => .eq
  | [], _ :: _ => .lt
  | _ :: _, [] => .gt
  | a :: as, b :: bs =>
    match charCmp a b with
    | .eq => strCmp as bs
    | o => o

namespace LocalEntry

/-- `Ord for LocalEntry`: directories sort before playables; within one
variant, entries compare by the file-name component of `full_path`. -/
def cmp (a b : LocalEntry) : Ordering :=
  match a with
  | Directory _ =>
    match b with
    | Directory _ => strCmp a.file_name b.file_name
    | Playable _ _ _ _ _ _ _ => .lt
  | Playable _ _ _ _ _ _ _ =>
    match b with
    | Directory _ => .gt
    | Playable _ _ _ _ _ _ _ => strCmp a.file_name b.file_name

/-- `PartialEq for LocalEntry`: same variant and same file-name component. -/
def localEq (a b : LocalEntry) : Bool :=
  match a with
  | Directory _ =>
    match b with
    | Directory _ => a.file_name == b.file_name
    | Playable _ _ _ _ _ _ _ => false
  | Playable _ _ _ _ _ _ _ =>
    match b with
    | Directory _ => false
    | Playable _ _ _ _ _ _ _ => a.file_name == b.file_name

end LocalEntry

/-- The non-strict order induced by `LocalEntry.cmp`; `Vec::sort` sorts
with respect to it. -/
def entryLe (a b : LocalEntry) : Prop := LocalEntry.cmp a b ≠ .gt

instance : DecidableRel entryLe := fun a b => by
  unfold entryLe; infer_instance

/-! ### The rspotify model types populated by the conversion -/

/-- `rspotify::model::SimplifiedArtist`; URL maps are modelled as
association lists. -/
structure SimplifiedArtist where
  external_urls : List (Str × Str)
  href : Option Str
  id : Option Str
  name : Str
deriving DecidableEq

/-- `rspotify::model::Image` (shape only; the conversion always produces an
empty image list). -/
structure Image where
  url : Str
deriving DecidableEq

/-- `rspotify::model::SimplifiedAlbum`.  Enumeration-valued fields the
conversion never populates (`album_type`, `restrictions`, dates) are
modelled with simple carriers. -/
structure SimplifiedAlbum where
  album_group : Option Str
  album_type : Option Str
  artists : List SimplifiedArtist
  available_markets : List Str
  external_urls : List (Str × Str)
  href : Option Str
  id : Option Str
  images : List Image
  name : Str
  release_date : Option Str
  release_date_precision : Option Str
  restrictions : Option Unit
deriving DecidableEq

/-- `rspotify::model::FullTrack`.  `duration` is a `chrono::TimeDelta`,
modelled in nanoseconds. -/
structure FullTrack where
  album : SimplifiedAlbum
  artists : List SimplifiedArtist
  available_markets : List Str
  disc_number : Int
  duration : Nat
  explicit : Bool
  external_ids : List (Str × Str)
  external_urls : List (Str × Str)
  href : Option Str
  id : Option Str
  is_local : Bool
  is_playable : Option Bool
  linked_from : Option Unit
  restrictions : Option Unit
  name : Str
  popularity : Nat
  preview_url : Option Str
  track_number : Nat
deriving DecidableEq

/-- `rspotify::model::PlayableItem` (only the `Track` variant is ever
produced by this code). -/
inductive PlayableItem where
  | Track (track : FullTrack)
deriving DecidableEq

/-- `rspotify::model::CurrentUserQueue`. -/
structure CurrentUserQueue where
  currently_playing : Option PlayableItem
  queue : List PlayableItem
deriving DecidableEq

/-- The largest `std::time::Duration`, in nanoseconds, that
`chrono::TimeDelta::from_std` accepts: `TimeDelta::MAX` is
`i64::MAX / 1000` seconds plus `(i64::MAX % 1000)` milliseconds. -/
def timeDeltaMaxNanos : Nat :=
  9223372036854775 * 1000000000 + 807 * 1000000

/-- `chrono::TimeDelta::from_std`: succeeds exactly when the duration does
not exceed `TimeDelta::MAX`. -/
def timeDelta_from_std (d : Nat) : Option Nat :=
  if d ≤ timeDeltaMaxNanos then some d else none

namespace LocalEntry

/-- `LocalEntry::try_to_playable_item`: a `Directory` converts to no item; a
`Playable` converts to a track populated from the defaulted accessors, with
every remaining field set to its neutral/empty/zero default and `is_local`
set to `true`. -/
def try_to_playable_item (e : LocalEntry) : Option PlayableItem :=
  match e with
  | Directory _ => none
  | Playable _ _ _ _ _ _ _ =>
    some (.Track
      { album :=
          { album_group := none
            album_type := none
            artists := []
            available_markets := []
            external_urls := []
            href := none
            id := none
            images := []
            name := e.album
            release_date := none
            release_date_precision := none
            restrictions := none }
        artists := e.artists.map (fun a =>
          { external_urls := []
            href := none
            id := none
            name := a })
        available_markets := []
        disc_number := 0
        duration := (timeDelta_from_std e.duration).getD 0
        explicit := false
        external_ids := []
        external_urls := []
        href := none
        id := none
        is_local := true
        is_playable := some true
        linked_from := none
        restrictions := none
        name := e.name
        popularity := 0
        preview_url := none
        track_number := 0 })

end LocalEntry

/-- `LocalEntries` from `local/mod.rs`: the ordered collection of entries. -/
structure LocalEntries where
  entries : List LocalEntry
deriving DecidableEq

namespace LocalEntries

/-- `LocalEntries::new`. -/
def new (entries : List LocalEntry) : LocalEntries := ⟨entries⟩

/-- The body of the loop in `LocalEntries::select`: entry `i` (counting from
the given offset) gets `set_selected (i == index)`. -/
def selectAux (index : Nat) : Nat → List LocalEntry → List LocalEntry
  | _, [] => []
  | i, e :: es => e.set_selected (i == index) :: selectAux index (i + 1) es

/-- `LocalEntries::select`. -/
def select (es : LocalEntries) (index : Nat) : LocalEntries :=
  ⟨selectAux index 0 es.entries⟩

/-- `LocalEntries::unselect_all`. -/
def unselect_all (es : LocalEntries) : LocalEntries :=
  ⟨es.entries.map (fun e => e.set_selected false)⟩

/-- `LocalEntries::to_user_queue`: the currently playing item is the
conversion of the entry at `current_index` when in bounds; the queue is
built by the loop `for i in current_index + 1 .. len`, keeping the entries
that convert to an item. -/
def to_user_queue (es : LocalEntries) (current_index : Nat) : CurrentUserQueue :=
  let currently_playing :=
    if current_index < es.entries.length then
      (es.entries[current_index]?).bind LocalEntry.try_to_playable_item
    else
      none
  let queue :=
    (List.range' (current_index + 1) (es.entries.length - (current_index + 1))).filterMap
      (fun i => (es.entries[i]?).bind LocalEntry.try_to_playable_item)
  { currently_playing := currently_playing, queue := queue }

end LocalEntries

/-! ### The directory scanner (`local/utils.rs`) -/

/-- Tag metadata as read by `audiotags` (`Tag::read_from_path`); the tag
duration, a fractional-seconds float in the library, is modelled already
converted to nanoseconds. -/
structure TagData where
  title : Option Str
  artists : Option (List Str)
  duration : Option Nat
  album : Option Str
  genre : Option Str
deriving DecidableEq

/-- One direct child of the scanned directory, as classified by
`entry_path.is_dir()` / `entry_path.is_file()`: a subdirectory, a regular
file (with the outcome of the tag read), or something that is neither.
The name is the plain file name reported by `read_dir`. -/
inductive FsChild where
  | dir (name : Str)
  | file (name : Str) (tag : Option TagData)
  | other (name : Str)
deriving DecidableEq

/-- `is_playable` from `local/utils.rs`: the file extension matches `mp3`
or `flac` case-insensitively. -/
def is_playable (filename : Str) : Bool :=
  match rustExtension filename with
  | some ext => eqIgnoreAsciiCase ext ['m', 'p', '3'] || eqIgnoreAsciiCase ext ['f', 'l', 'a', 'c']
  | none => false

/-- The tag-application block of `get_local_entries`: each metadata field of
the playable entry is overwritten when the tag provides it. -/
def applyTag (t : TagData) : LocalEntry → LocalEntry
  | .Playable fp sel title arts dur alb gen =>
    .Playable fp sel
      (match t.title with | some x => some x | none => title)
      (match t.artists with | some x => some x | none => arts)
      (match t.duration with | some x => some x | none => dur)
      (match t.album with | some x => some x | none => alb)
      (match t.genre with | some x => some x | none => gen)
  | e => e

/-- The loop body of `get_local_entries` for one directory child: a
subdirectory becomes a `Directory` entry; a regular file becomes a fresh
`Playable` entry (enriched by the tag read when it succeeded) when its name
passes `is_playable`, and is skipped otherwise; anything else is skipped. -/
def childToEntry (path : Str) : FsChild → Option LocalEntry
  | .dir name => some (.Directory (pathJoin path name))
  | .file name tag =>
    if is_playable name then
      let playable : LocalEntry := .Playable (pathJoin path name) false none none none none none
      some (match tag with
        | some t => applyTag t playable
        | none => playable)
    else
      none
  | .other _ => none

/-- The `..` parent marker entry prepended by every successful scan. -/
def parentMarker : LocalEntry := .Directory ['.', '.']

/-- `get_local_entries`: the filesystem is abstracted by whether `path` is a
directory (`path.is_dir()`) and by the listing `read_dir` returns (`none`
models `read_dir` failing).  A non-directory yields the empty collection;
otherwise the `..` marker plus the classified children are sorted with the
`LocalEntry` ordering. -/
def get_local_entries (path : Str) (is_dir : Bool) (read_dir : Option (List FsChild)) :
    LocalEntries :=
  if !is_dir then
    LocalEntries.new []
  else
    let children :=
      match read_dir with
      | some cs => cs.filterMap (childToEntry path)
      | none => []
    LocalEntries.new (List.insertionSort entryLe (parentMarker :: children))

/-! ### Lemmas about the character and string comparisons -/

theorem char_eq_of_toNat_eq {a b : Char} (h : a.toNat = b.toNat) : a = b :=
  Char.eq_of_val_eq (UInt32.ext h)

theorem charCmp_lt_iff (a b : Char) : charCmp a b = .lt ↔ a.toNat < b.toNat := by
  unfold charCmp
  split
  · simp [*]
  · split <;> simp <;> omega

theorem charCmp_gt_iff (a b : Char) : charCmp a b = .gt ↔ b.toNat < a.toNat := by
  unfold charCmp
  split
  · rename_i h; simp; omega
  · split <;> rename_i h₁ h₂ <;> simp <;> omega

theorem charCmp_eq_iff (a b : Char) : charCmp a b = .eq ↔ a = b := by
  unfold charCmp
  split
  · rename_i h
    constructor
    · intro hc; exact absurd hc (by simp)
    · rintro rfl; omega
  · split <;> rename_i h₁ h₂
    · constructor
      · intro _; exact char_eq_of_toNat_eq h₂
      · intro _; rfl
    · constructor
      · intro hc; exact absurd hc (by simp)
      · rintro rfl; omega

theorem charCmp_refl (a : Char) : charCmp a a = .eq :=
  (charCmp_eq_iff a a).mpr rfl

theorem charCmp_swap (a b : Char) : (charCmp a b).swap = charCmp b a := by
  unfold charCmp
  split <;> rename_i h₁
  · rw [if_neg (by omega), if_neg (by omega)]; rfl
  · split <;> rename_i h₂
    · rw [if_neg (by omega), if_pos (by omega)]; rfl
    · rw [if_pos (by omega)]; rfl

theorem strCmp_eq_iff (s t : Str) : strCmp s t = .eq ↔ s = t := by
  induction s generalizing t with
  | nil => cases t <;> simp [strCmp]
  | cons a as ih =>
    cases t with
    | nil => simp [strCmp]
    | cons b bs =>
      simp only [strCmp]
      cases h : charCmp a b with
      | lt =>
        constructor
        · intro hc; exact absurd hc (by simp)
        · intro hc
          injection hc with h1 _
          rw [h1, charCmp_refl] at h
          exact absurd h (by simp)
      | eq =>
        have hab : a = b := (charCmp_eq_iff a b).mp h
        subst hab
        rw [ih]
        simp
      | gt =>
        constructor
        · intro hc; exact absurd hc (by simp)
        · intro hc
          injection hc with h1 _
          rw [h1, charCmp_refl] at h
          exact absurd h (by simp)

theorem strCmp_refl (s : Str) : strCmp s s = .eq :=
  (strCmp_eq_iff s s).mpr rfl

theorem strCmp_swap (s t : Str) : (strCmp s t).swap = strCmp t s := by
  induction s generalizing t with
  | nil => cases t <;> simp [strCmp, Ordering.swap]
  | cons a as ih =>
    cases t with
    | nil => simp [strCmp, Ordering.swap]
    | cons b bs =>
      simp only [strCmp]
      cases h : charCmp a b with
      | lt => rw [← charCmp_swap a b, h]; rfl
      | eq =>
        rw [← charCmp_swap a b, h]
        exact ih bs
      | gt => rw [← charCmp_swap a b, h]; rfl

theorem strCmp_trans_lt {s t u : Str} (h₁ : strCmp s t = .lt) (h₂ : strCmp t u = .lt) :
    strCmp s u = .lt := by
  induction s generalizing t u with
  | nil =>
    cases t with
    | nil => exact absurd h₁ (by simp [strCmp])
    | cons b bs =>
      cases u with
      | nil => exact absurd h₂ (by simp [strCmp])
      | cons c cs => simp [strCmp]
  | cons a as ih =>
    cases t with
    | nil => exact absurd h₁ (by simp [strCmp])
    | cons b bs =>
      cases u with
      | nil => exact absurd h₂ (by simp [strCmp])
      | cons c cs =>
        simp only [strCmp] at h₁ h₂ ⊢
        cases hab : charCmp a b with
        | lt =>
          cases hbc : charCmp b c with
          | lt =>
            have : charCmp a c = .lt := by
              rw [charCmp_lt_iff] at hab hbc ⊢; omega
            rw [this]
          | eq =>
            have hbceq : b = c := (charCmp_eq_iff b c).mp hbc
            subst hbceq
            rw [hab]
          | gt => rw [hbc] at h₂; exact absurd h₂ (by simp)
        | eq =>
          have habeq : a = b := (charCmp_eq_iff a b).mp hab
          subst habeq
          rw [charCmp_refl] at h₁
          cases hbc : charCmp a c with
          | lt => rfl
          | eq =>
            rw [hbc] at h₂
            exact ih h₁ h₂
          | gt => rw [hbc] at h₂; exact absurd h₂ (by simp)
        | gt => rw [hab] at h₁; exact absurd h₁ (by simp)

theorem strCmp_trans_le {s t u : Str} (h₁ : strCmp s t ≠ .gt) (h₂ : strCmp t u ≠ .gt) :
    strCmp s u ≠ .gt := by
  cases hst : strCmp s t with
  | gt => exact absurd hst h₁
  | eq =>
    have : s = t := (strCmp_eq_iff s t).mp hst
    subst this
    exact h₂
  | lt =>
    cases htu : strCmp t u with
    | gt => exact absurd htu h₂
    | eq =>
      have : t = u := (strCmp_eq_iff t u).mp htu
      subst this
      rw [hst]; simp
    | lt =>
      rw [strCmp_trans_lt hst htu]; simp

/-! ### Lemmas about the entry ordering and equality -/

namespace LocalEntry

theorem cmp_dir_playable {a b : LocalEntry} (ha : a.isPlayable = false)
    (hb : b.isPlayable = true) : cmp a b = .lt ∧ cmp b a = .gt := by
  cases a <;> cases b <;> simp_all [isPlayable, cmp]

theorem cmp_same_variant {a b : LocalEntry} (h : a.isPlayable = b.isPlayable) :
    cmp a b = strCmp a.file_name b.file_name := by
  cases a <;> cases b <;> simp_all [isPlayable, cmp]

theorem cmp_eq_iff_localEq (a b : LocalEntry) : cmp a b = .eq ↔ localEq a b = true := by
  cases a <;> cases b <;>
    simp [cmp, localEq, strCmp_eq_iff, beq_iff_eq]

theorem localEq_iff (a b : LocalEntry) :
    localEq a b = true ↔ (a.isPlayable = b.isPlayable ∧ a.file_name = b.file_name) := by
  cases a <;> cases b <;>
    simp [localEq, isPlayable, beq_iff_eq]

theorem cmp_swap (a b : LocalEntry) : (cmp a b).swap = cmp b a := by
  cases a <;> cases b <;> simp [cmp, strCmp_swap] <;> rfl

theorem cmp_trans_le {a b c : LocalEntry} (h₁ : cmp a b ≠ .gt) (h₂ : cmp b c ≠ .gt) :
    cmp a c ≠ .gt := by
  cases a <;> cases b <;> cases c <;>
    simp_all [cmp] <;>
    exact strCmp_trans_le h₁ h₂

end LocalEntry

theorem entryLe_iff (a b : LocalEntry) : entryLe a b ↔ LocalEntry.cmp a b ≠ .gt :=
  Iff.rfl

instance : IsTotal LocalEntry entryLe where
  total a b := by
    cases h : LocalEntry.cmp a b with
    | lt => left; simp [entryLe, h]
    | eq => left; simp [entryLe, h]
    | gt =>
      right
      have hs := LocalEntry.cmp_swap a b
      rw [h] at hs
      simp only [entryLe, ← hs]
      simp [Ordering.swap]

instance : IsTrans LocalEntry entryLe where
  trans _ _ _ h₁ h₂ := LocalEntry.cmp_trans_le h₁ h₂

/-! ### Lemmas about selection -/

theorem selected_set_selected (e : LocalEntry) (b : Bool) :
    (e.set_selected b).selected = (b && e.isPlayable) := by
  cases e <;> cases b <;> rfl

theorem length_selectAux (k i : Nat) (l : List LocalEntry) :
    (LocalEntries.selectAux k i l).length = l.length := by
  induction l generalizing i with
  | nil => rfl
  | cons e t ih => simp [LocalEntries.selectAux, ih]

theorem get_selectAux (k i : Nat) (l : List LocalEntry) (j : Nat) (hj : j < l.length)
    (hj2 : j < (LocalEntries.selectAux k i l).length) :
    (LocalEntries.selectAux k i l).get ⟨j, hj2⟩ =
      (l.get ⟨j, hj⟩).set_selected ((i + j) == k) := by
  induction l generalizing i j with
  | nil => exact absurd hj (by simp)
  | cons e t ih =>
    cases j with
    | zero => simp [LocalEntries.selectAux]
    | succ j =>
      have hj3 : j < t.length := by simpa using hj
      have hj4 : j < (LocalEntries.selectAux k (i + 1) t).length := by
        rw [length_selectAux]; exact hj3
      have step : (LocalEntries.selectAux k i (e :: t)).get ⟨j + 1, hj2⟩ =
          (LocalEntries.selectAux k (i + 1) t).get ⟨j, hj4⟩ := by
        simp [LocalEntries.selectAux]
      rw [step, ih (i + 1) j hj3 hj4]
      have : i + 1 + j = i + (j + 1) := by omega
      rw [this]
      simp

theorem countP_selectAux_high (k i : Nat) (l : List LocalEntry) (h : k < i) :
    (LocalEntries.selectAux k i l).countP LocalEntry.selected = 0 := by
  induction l generalizing i with
  | nil => rfl
  | cons e t ih =>
    simp only [LocalEntries.selectAux, List.countP_cons]
    rw [ih (i + 1) (by omega)]
    have hne : (i == k) = false := by simp; omega
    rw [hne, selected_set_selected]
    simp

theorem countP_selectAux (k i : Nat) (l : List LocalEntry) :
    (LocalEntries.selectAux k i l).countP LocalEntry.selected =
      if i ≤ k then
        (match l[k - i]? with
          | some e => if e.isPlayable then 1 else 0
          | none => 0)
      else 0 := by
  induction l generalizing i with
  | nil => simp [LocalEntries.selectAux]
  | cons e t ih =>
    simp only [LocalEntries.selectAux, List.countP_cons]
    by_cases hik : i = k
    · subst hik
      rw [countP_selectAux_high i (i + 1) t (by omega)]
      rw [if_pos (Nat.le_refl i)]
      have h0 : i - i = 0 := by omega
      rw [h0]
      simp [selected_set_selected]
    · have hne : (i == k) = false := by simp [hik]
      rw [hne, selected_set_selected, ih (i + 1)]
      simp only [Bool.false_and]
      by_cases hle : i ≤ k
      · rw [if_pos hle]
        by_cases hle2 : i + 1 ≤ k
        · rw [if_pos hle2]
          have hidx : k - i = (k - (i + 1)) + 1 := by omega
          rw [hidx, List.getElem?_cons_succ]
          simp
        · exact absurd (by omega : i = k) hik
      · rw [if_neg hle, if_neg (by omega)]
        simp

theorem countP_unselect_all (l : List LocalEntry) :
    (l.map (fun e => e.set_selected false)).countP LocalEntry.selected = 0 := by
  rw [List.countP_eq_zero]
  intro a ha
  obtain ⟨x, _, rfl⟩ := List.mem_map.mp ha
  rw [selected_set_selected]
  simp

/-! ### The index loop of `to_user_queue` visits exactly the suffix -/

theorem filterMap_range_eq_drop {α β : Type} (l : List α) (f : α → Option β) :
    ∀ (k n : Nat), k = l.length - n →
      (List.range' n k).filterMap (fun i => l[i]?.bind f) =
        (l.drop n).filterMap f := by
  intro k
  induction k with
  | zero =>
    intro n hn
    have : l.length ≤ n := by omega
    rw [List.drop_eq_nil_of_le this]
    rfl
  | succ k ih =>
    intro n hn
    have hlt : n < l.length := by omega
    rw [List.range'_succ, List.filterMap_cons, List.getElem?_eq_getElem hlt]
    rw [List.drop_eq_getElem_cons hlt, List.filterMap_cons]
    have hrec := ih (n + 1) (by omega)
    simp only [Option.some_bind]
    cases hf : f l[n] with
    | none => exact hrec
    | some b => rw [hrec]

/-! ### Claims -/

/-- C5: for every path that does not resolve to a directory, the scan
returns a collection with zero entries (not even the `..` marker), as a
defined result rather than an error. -/
theorem c5_scan_non_directory (path : Str) (read_dir : Option (List FsChild)) :
    get_local_entries path false read_dir = LocalEntries.new [] ∧
      (get_local_entries path false read_dir).entries.length = 0 :=
  ⟨rfl, rfl⟩

/-- C9: on a `Playable` entry, `set_duration` with `some d` followed by
`duration` returns exactly `d` (including `d = 0`), `set_duration`
unconditionally overwrites the stored duration, and `set_duration` with
`none` makes `duration` return zero. -/
theorem c9_duration_roundtrip (fp : Str) (sel : Bool) (title : Option Str)
    (arts : Option (List Str)) (dur : Option Nat) (alb gen : Option Str)
    (d : Nat) (newd : Option Nat) :
    ((LocalEntry.Playable fp sel title arts dur alb gen).set_duration (some d)).duration = d ∧
      ((LocalEntry.Playable fp sel title arts dur alb gen).set_duration newd).durationOpt =
        newd ∧
      ((LocalEntry.Playable fp sel title arts dur alb gen).set_duration none).duration = 0 :=
  ⟨rfl, rfl, rfl⟩

/-- C6: after any `select i` at most one entry is selected, and after
`unselect_all` no entry is selected. -/
theorem c6_selection_invariant (es : LocalEntries) (i : Nat) :
    (es.select i).entries.countP LocalEntry.selected ≤ 1 ∧
      es.unselect_all.entries.countP LocalEntry.selected = 0 := by
  constructor
  · show (LocalEntries.selectAux i 0 es.entries).countP LocalEntry.selected ≤ 1
    rw [countP_selectAux]
    rw [if_pos (Nat.zero_le i)]
    split <;> try omega
    split <;> omega
  · exact countP_unselect_all es.entries

/-- C10: an in-bounds `select i` whose target entry is not a `Playable`
(i.e. is a `Directory`) leaves the whole collection unselected. -/
theorem c10_select_directory (es : LocalEntries) (i : Nat)
    (h : i < es.entries.length) (hd : (es.entries.get ⟨i, h⟩).isPlayable = false) :
    (es.select i).entries.countP LocalEntry.selected = 0 := by
  show (LocalEntries.selectAux i 0 es.entries).countP LocalEntry.selected = 0
  rw [countP_selectAux, if_pos (Nat.zero_le i)]
  have h0 : i - 0 = i := by omega
  rw [h0, List.getElem?_eq_getElem h]
  rw [List.get_eq_getElem] at hd
  simp [hd]

/-- C10 witness: selecting the only entry of a one-directory collection
selects nothing. -/
theorem c10_select_directory_witness :
    ((LocalEntries.new [LocalEntry.Directory ['d']]).select 0).entries.countP
        LocalEntry.selected = 0 :=
  c10_select_directory (LocalEntries.new [LocalEntry.Directory ['d']]) 0 (by decide) (by decide)

/-- C1 counterexample: a collection whose entry 0 is a `Directory` has
`0` in bounds, yet after `select 0` no entry (rather than exactly one) is
selected, refuting the claim as stated. -/
theorem c1_counterexample :
    0 < (LocalEntries.new [LocalEntry.Directory ['d']]).entries.length ∧
      ¬ ((LocalEntries.new [LocalEntry.Directory ['d']]).select 0).entries.countP
          LocalEntry.selected = 1 := by
  constructor
  · decide
  · decide

/-- C1 (amended): after `select i` with `i` in bounds and the entry at `i`
a `Playable`, exactly one entry is selected, namely the one at `i`; after
`select i` with `i` out of bounds, zero entries are selected.  (When the
in-bounds target is a `Directory`, `set_selected` is a no-op on it and zero
entries end up selected.) -/
theorem c1_select_amended (es : LocalEntries) (i : Nat) :
    (∀ (h : i < es.entries.length), (es.entries.get ⟨i, h⟩).isPlayable = true →
        (es.select i).entries.countP LocalEntry.selected = 1 ∧
          ∀ (j : Nat) (hj : j < (es.select i).entries.length),
            ((es.select i).entries.get ⟨j, hj⟩).selected = decide (j = i)) ∧
      (es.entries.length ≤ i →
        (es.select i).entries.countP LocalEntry.selected = 0) := by
  constructor
  · intro h hp
    constructor
    · show (LocalEntries.selectAux i 0 es.entries).countP LocalEntry.selected = 1
      rw [countP_selectAux, if_pos (Nat.zero_le i)]
      have h0 : i - 0 = i := by omega
      rw [h0, List.getElem?_eq_getElem h]
      rw [List.get_eq_getElem] at hp
      simp [hp]
    · intro j hj
      have hj2 : j < es.entries.length := by
        have := length_selectAux i 0 es.entries
        show j < es.entries.length
        have hlen : (es.select i).entries.length = es.entries.length := this
        omega
      have hsel : (es.select i).entries.get ⟨j, hj⟩ =
          (es.entries.get ⟨j, hj2⟩).set_selected ((0 + j) == i) :=
        get_selectAux i 0 es.entries j hj2 hj
      rw [hsel, selected_set_selected]
      by_cases hji : j = i
      · subst hji
        have : es.entries.get ⟨j, hj2⟩ = es.entries.get ⟨j, h⟩ := rfl
        rw [this, hp]
        simp
      · have : ((0 + j) == i) = false := by simp; omega
        rw [this]
        simp [hji]
  · intro h
    show (LocalEntries.selectAux i 0 es.entries).countP LocalEntry.selected = 0
    rw [countP_selectAux, if_pos (Nat.zero_le i)]
    have h0 : i - 0 = i := by omega
    rw [h0, List.getElem?_eq_none (by omega)]

/-- C1 witness: in a two-entry collection (a directory then a playable),
`select 1` selects exactly one entry, and `select 5` selects none. -/
theorem c1_select_amended_witness :
    (((LocalEntries.new [LocalEntry.Directory ['d'],
        LocalEntry.Playable ['a'] false none none none none none]).select 1).entries.countP
      LocalEntry.selected = 1) ∧
      (((LocalEntries.new [LocalEntry.Directory ['d'],
          LocalEntry.Playable ['a'] false none none none none none]).select 5).entries.countP
        LocalEntry.selected = 0) :=
  ⟨((c1_select_amended (LocalEntries.new [LocalEntry.Directory ['d'],
      LocalEntry.Playable ['a'] false none none none none none]) 1).1
      (by decide) (by decide)).1,
    (c1_select_amended (LocalEntries.new [LocalEntry.Directory ['d'],
      LocalEntry.Playable ['a'] false none none none none none]) 5).2 (by decide)⟩

/-- C2: `to_user_queue` makes `currently_playing` the conversion of the
entry at `current_index` when that index is in bounds and empty otherwise,
and makes `queue` exactly the conversions, in order, of the entries at
indices `current_index + 1` to the end (directories convert to no item and
are dropped; earlier entries never appear). -/
theorem c2_to_user_queue (es : LocalEntries) (current_index : Nat) :
    (∀ (h : current_index < es.entries.length),
        (es.to_user_queue current_index).currently_playing =
          (es.entries.get ⟨current_index, h⟩).try_to_playable_item) ∧
      (es.entries.length ≤ current_index →
        (es.to_user_queue current_index).currently_playing = none) ∧
      (es.to_user_queue current_index).queue =
        (es.entries.drop (current_index + 1)).filterMap LocalEntry.try_to_playable_item := by
  refine ⟨?_, ?_, ?_⟩
  · intro h
    show (if current_index < es.entries.length then
        (es.entries[current_index]?).bind LocalEntry.try_to_playable_item else none) =
      (es.entries.get ⟨current_index, h⟩).try_to_playable_item
    rw [if_pos h, List.getElem?_eq_getElem h, Option.some_bind, List.get_eq_getElem]
  · intro h
    show (if current_index < es.entries.length then
        (es.entries[current_index]?).bind LocalEntry.try_to_playable_item else none) = none
    rw [if_neg (by omega)]
  · exact filterMap_range_eq_drop es.entries LocalEntry.try_to_playable_item
      (es.entries.length - (current_index + 1)) (current_index + 1) rfl

/-- C2 witness: on a three-entry all-playable collection with index 1, the
currently playing item is entry 1's conversion and the queue holds exactly
entry 2's conversion; with index 10 nothing is playing. -/
theorem c2_to_user_queue_witness :
    ((LocalEntries.new [LocalEntry.Playable ['a'] false none none none none none,
        LocalEntry.Playable ['b'] false none none none none none,
        LocalEntry.Playable ['c'] false none none none none none]).to_user_queue 1).currently_playing =
      (LocalEntry.Playable ['b'] false none none none none none).try_to_playable_item ∧
      ((LocalEntries.new [LocalEntry.Playable ['a'] false none none none none none,
          LocalEntry.Playable ['b'] false none none none none none,
          LocalEntry.Playable ['c'] false none none none none none]).to_user_queue 10).currently_playing =
        none :=
  ⟨(c2_to_user_queue (LocalEntries.new [LocalEntry.Playable ['a'] false none none none none none,
      LocalEntry.Playable ['b'] false none none none none none,
      LocalEntry.Playable ['c'] false none none none none none]) 1).1 (by decide),
    (c2_to_user_queue (LocalEntries.new [LocalEntry.Playable ['a'] false none none none none none,
      LocalEntry.Playable ['b'] false none none none none none,
      LocalEntry.Playable ['c'] false none none none none none]) 10).2.1 (by decide)⟩

/-- C3: the entry comparison is a total order in which every directory
sorts strictly before every playable, same-variant entries compare
lexicographically by the file-name component of `full_path`, and the
custom equality mirrors the order (equal iff same variant and same
file-name component; a directory never equals a playable). -/
theorem c3_order_total (a b c : LocalEntry) :
    (a.isPlayable = false → b.isPlayable = true →
        LocalEntry.cmp a b = .lt ∧ LocalEntry.cmp b a = .gt) ∧
      (a.isPlayable = b.isPlayable →
        LocalEntry.cmp a b = strCmp a.file_name b.file_name) ∧
      (LocalEntry.cmp a b = .eq ↔ LocalEntry.localEq a b = true) ∧
      (LocalEntry.localEq a b = true ↔
        (a.isPlayable = b.isPlayable ∧ a.file_name = b.file_name)) ∧
      ((LocalEntry.cmp a b).swap = LocalEntry.cmp b a) ∧
      (LocalEntry.cmp a b ≠ .gt ∨ LocalEntry.cmp b a ≠ .gt) ∧
      (LocalEntry.cmp a b ≠ .gt → LocalEntry.cmp b c ≠ .gt → LocalEntry.cmp a c ≠ .gt) ∧
      (LocalEntry.cmp a b ≠ .gt → LocalEntry.cmp b a ≠ .gt →
        LocalEntry.localEq a b = true) := by
  refine ⟨fun ha hb => LocalEntry.cmp_dir_playable ha hb,
    fun h => LocalEntry.cmp_same_variant h,
    LocalEntry.cmp_eq_iff_localEq a b,
    LocalEntry.localEq_iff a b,
    LocalEntry.cmp_swap a b,
    total_of entryLe a b,
    fun h₁ h₂ => LocalEntry.cmp_trans_le h₁ h₂,
    ?_⟩
  intro h₁ h₂
  have hs := LocalEntry.cmp_swap a b
  cases hab : LocalEntry.cmp a b with
  | lt =>
    rw [hab] at hs
    exact absurd hs.symm (by simpa [Ordering.swap] using h₂)
  | eq => exact (LocalEntry.cmp_eq_iff_localEq a b).mp hab
  | gt => exact absurd hab h₁

/-- C3 witness: the comparison at concrete entries — a directory sorts
before a playable in both directions. -/
theorem c3_order_total_witness :
    LocalEntry.cmp (LocalEntry.Directory ['z'])
        (LocalEntry.Playable ['a'] false none none none none none) = .lt ∧
      LocalEntry.cmp (LocalEntry.Playable ['a'] false none none none none none)
        (LocalEntry.Directory ['z']) = .gt :=
  (c3_order_total (LocalEntry.Directory ['z'])
    (LocalEntry.Playable ['a'] false none none none none none)
    (LocalEntry.Directory ['z'])).1 (by decide) (by decide)

theorem get_local_entries_dir (path : Str) (cs : List FsChild) :
    get_local_entries path true (some cs) =
      LocalEntries.new (List.insertionSort entryLe
        (parentMarker :: cs.filterMap (childToEntry path))) :=
  rfl

/-- C4: scanning a directory yields the `..` marker entry plus one
`Directory` entry per child directory and one `Playable` entry per child
file whose extension matches `mp3`/`flac` case-insensitively (other
children are dropped), the whole sequence sorted by the entry ordering;
in particular a directory holding `b.mp3`, `a.flac` and subdirectory `z`
scans to the name sequence `[.., z, a.flac, b.mp3]`. -/
theorem c4_scan_directory (path : Str) (cs : List FsChild) :
    List.Perm (get_local_entries path true (some cs)).entries
        (parentMarker :: cs.filterMap (childToEntry path)) ∧
      List.Sorted entryLe (get_local_entries path true (some cs)).entries ∧
      (get_local_entries ['m'] true
          (some [FsChild.file ['b', '.', 'm', 'p', '3'] none,
            FsChild.file ['a', '.', 'f', 'l', 'a', 'c'] none,
            FsChild.dir ['z']])).entries.map LocalEntry.name =
        [['.', '.'], ['z'],
          ['a', '.', 'f', 'l', 'a', 'c'],
          ['b', '.', 'm', 'p', '3']] := by
  refine ⟨?_, ?_, ?_⟩
  · rw [get_local_entries_dir]
    exact List.perm_insertionSort entryLe _
  · rw [get_local_entries_dir]
    exact List.sorted_insertionSort entryLe _
  · decide

/-- C7 counterexample: a `Playable` whose stored album field is
`some "unknown"` returns the default string from `album()` even though the
field is present, refuting the "exactly when absent" direction. -/
theorem c7_counterexample :
    ¬ (((LocalEntry.Playable ['a'] false none none none
          (some LocalEntry.unknownStr) none).album = LocalEntry.unknownStr) ↔
        ((LocalEntry.Playable ['a'] false none none none
          (some LocalEntry.unknownStr) none).albumOpt = none)) := by
  decide

/-- C7 (amended): on a `Directory`, `selected()` is false, `set_selected`
and `set_duration` are no-ops, and `album()`/`artists()`/`duration()`
return `unknown`/empty/zero; on a `Playable` these accessors return the
same defaults when the corresponding optional field is absent (a stored
value equal to the default is returned as well, so "only when absent" does
not hold). -/
theorem c7_defaults_amended (fp : Str) (sel : Bool) (title : Option Str)
    (arts : Option (List Str)) (dur : Option Nat) (alb gen : Option Str)
    (v : Bool) (d : Option Nat) :
    (LocalEntry.Directory fp).selected = false ∧
      (LocalEntry.Directory fp).set_selected v = LocalEntry.Directory fp ∧
      (LocalEntry.Directory fp).set_duration d = LocalEntry.Directory fp ∧
      (LocalEntry.Directory fp).album = LocalEntry.unknownStr ∧
      (LocalEntry.Directory fp).artists = [] ∧
      (LocalEntry.Directory fp).duration = 0 ∧
      (alb = none →
        (LocalEntry.Playable fp sel title arts dur alb gen).album =
          LocalEntry.unknownStr) ∧
      (arts = none →
        (LocalEntry.Playable fp sel title arts dur alb gen).artists = []) ∧
      (dur = none →
        (LocalEntry.Playable fp sel title arts dur alb gen).duration = 0) := by
  refine ⟨rfl, rfl, rfl, rfl, rfl, rfl, ?_, ?_, ?_⟩ <;> rintro rfl <;> rfl

/-- C7 witness: the defaults at a concrete all-absent playable entry. -/
theorem c7_defaults_amended_witness :
    (LocalEntry.Playable ['a'] false none none none none none).album =
        LocalEntry.unknownStr ∧
      (LocalEntry.Playable ['a'] false none none none none none).artists = [] ∧
      (LocalEntry.Playable ['a'] false none none none none none).duration = 0 :=
  ⟨(c7_defaults_amended ['a'] false none none none none none false none).2.2.2.2.2.2.1 rfl,
    (c7_defaults_amended ['a'] false none none none none none false none).2.2.2.2.2.2.2.1 rfl,
    (c7_defaults_amended ['a'] false none none none none none false none).2.2.2.2.2.2.2.2 rfl⟩

/-- The duration carried by a converted playable item (projection used to
state the C8 claims). -/
def itemDuration : PlayableItem → Nat
  | .Track t => t.duration

/-- C8 counterexample: a `Playable` whose duration exceeds
`TimeDelta::MAX` converts to a track whose duration is zero, not
`duration()`, refuting the claim that the conversion always sets the
item's duration from `duration()`. -/
theorem c8_counterexample :
    (LocalEntry.try_to_playable_item (LocalEntry.Playable ['a'] false none none
          (some (timeDeltaMaxNanos + 1)) none none)).map itemDuration ≠
      some ((LocalEntry.Playable ['a'] false none none
          (some (timeDeltaMaxNanos + 1)) none none).duration) := by
  decide

/-- C8 (amended): converting a `Playable` yields a track whose name, album
name and artist names come from `name()`, `album()` and `artists()`, whose
duration is `duration()` whenever that fits in `chrono::TimeDelta` (and
zero otherwise, via `TimeDelta::from_std(..).unwrap_or(zero)`), whose
`is_local` flag is true, and whose remaining fields (identifiers,
popularity, market availability, explicit flag, preview URL, external
URLs, disc and track number) hold their neutral/empty/zero defaults. -/
theorem c8_conversion_amended (fp : Str) (sel : Bool) (title : Option Str)
    (arts : Option (List Str)) (dur : Option Nat) (alb gen : Option Str) :
    ∃ ft : FullTrack,
      (LocalEntry.Playable fp sel title arts dur alb gen).try_to_playable_item =
          some (.Track ft) ∧
        ft.name = (LocalEntry.Playable fp sel title arts dur alb gen).name ∧
        ft.album.name = (LocalEntry.Playable fp sel title arts dur alb gen).album ∧
        ft.artists.map SimplifiedArtist.name =
          (LocalEntry.Playable fp sel title arts dur alb gen).artists ∧
        ft.duration =
          (if (LocalEntry.Playable fp sel title arts dur alb gen).duration ≤
              timeDeltaMaxNanos then
            (LocalEntry.Playable fp sel title arts dur alb gen).duration
          else 0) ∧
        ft.is_local = true ∧
        ft.id = none ∧
        ft.popularity = 0 ∧
        ft.available_markets = [] ∧
        ft.explicit = false ∧
        ft.preview_url = none ∧
        ft.external_urls = [] ∧
        ft.disc_number = 0 ∧
        ft.track_number = 0 := by
  refine ⟨_, rfl, rfl, rfl, ?_, ?_, rfl, rfl, rfl, rfl, rfl, rfl, rfl, rfl, rfl⟩
  · rw [List.map_map]
    have hcomp : (SimplifiedArtist.name ∘ fun a : Str =>
        ({ external_urls := [], href := none, id := none, name := a } : SimplifiedArtist)) =
          id := rfl
    rw [hcomp, List.map_id]
  · show (timeDelta_from_std (LocalEntry.Playable fp sel title arts dur alb gen).duration).getD 0 = _
    unfold timeDelta_from_std
    split <;> rfl
